import Mathlib

/-!
Verification of the mcp-searxng-public search pipeline (src/src/index.ts,
version 1.2.5).  The TypeScript source is shallowly embedded below:

* `SearchResult` models `{ url: string; summary: string }`;
* `addUniqueResults` models the helper of the same name (index.ts:124);
* `shuffleAndFilterUrls` models the helper of the same name (index.ts:138),
  with JavaScript's `Array.prototype.sort` under an arbitrary comparator
  realized by a comparator-oracle-driven insertion sort (with an
  inconsistent comparator ECMAScript leaves the order implementation
  defined but the output is always a permutation of the input);
* `fetchMultiplePages` models the helper of the same name (index.ts:143);
* `fetchWithRetry` models the retry controller (index.ts:174);
* `classifyAttempt` / `fetchResultsCall` model `fetchResults` (index.ts:214),
  with the `fetch` network calls as oracles and `Response.text()` modelled
  with its `bodyUsed` flag (a second read of the same body throws);
* the regex scanners of `fetchResults` are embedded as backtracking
  matchers over `List Char` mirroring the JavaScript regular expressions;
* `executeTool` models the `execute` entry of the `search` tool
  (index.ts:338).
-/

/-- One extracted search result: `{ url: string; summary: string }`. -/
structure SearchResult where
  url : String
  summary : String
deriving DecidableEq, Repr

/-- Loop body of index.ts:124 `addUniqueResults`: push a result whose `url`
is not in `processedUrls`, recording the url.  The accumulator pairs
`allResults` with `processedUrls` (the JS `Set<string>` modelled as the list
of added urls, queried by membership). -/
def addStep (p : List SearchResult × List String) (r : SearchResult) :
    List SearchResult × List String :=
  if p.2.contains r.url then p else (p.1 ++ [r], p.2 ++ [r.url])

/-- index.ts:124 `addUniqueResults`: fold `addStep` over the new results. -/
def addUniqueResults (acc : List SearchResult × List String)
    (newResults : List SearchResult) : List SearchResult × List String :=
  newResults.foldl addStep acc

/-- Specification-side recursion for first-occurrence deduplication: keep a
result when its url has not been seen, remembering seen urls. -/
def dedupSeen : List SearchResult → List String → List SearchResult
  | [], _ => []
  | r :: rs, seen =>
    if seen.contains r.url then dedupSeen rs seen
    else r :: dedupSeen rs (seen ++ [r.url])

/-- Merging a sequence of ResultSets into an initially empty aggregate, as the
detailed mode does via repeated `addUniqueResults` calls. -/
def mergeAll (sets : List (List SearchResult)) : List SearchResult :=
  (sets.foldl addUniqueResults ([], [])).1

theorem addUniqueResults_foldl_spec (l : List SearchResult) :
    ∀ acc : List SearchResult,
      l.foldl addStep (acc, acc.map (·.url))
        = (acc ++ dedupSeen l (acc.map (·.url)),
           (acc ++ dedupSeen l (acc.map (·.url))).map (·.url)) := by
  induction l with
  | nil => intro acc; simp [dedupSeen]
  | cons r rs ih =>
    intro acc
    rw [List.foldl_cons]
    cases h : (acc.map (·.url)).contains r.url with
    | true =>
      have hstep : addStep (acc, acc.map (·.url)) r = (acc, acc.map (·.url)) := by
        unfold addStep; rw [if_pos h]
      have hd : dedupSeen (r :: rs) (acc.map (·.url))
          = dedupSeen rs (acc.map (·.url)) := by
        show (if (acc.map (·.url)).contains r.url then _ else _) = _
        rw [if_pos h]
      rw [hstep, ih acc, hd]
    | false =>
      have h' : ¬ ((acc.map (·.url)).contains r.url = true) := by
        intro hc; rw [h] at hc; exact Bool.noConfusion hc
      have hstep : addStep (acc, acc.map (·.url)) r
          = (acc ++ [r], (acc ++ [r]).map (·.url)) := by
        unfold addStep; rw [if_neg h']; simp
      have hd : dedupSeen (r :: rs) (acc.map (·.url))
          = r :: dedupSeen rs ((acc ++ [r]).map (·.url)) := by
        show (if (acc.map (·.url)).contains r.url then _ else _) = _
        rw [if_neg h']; simp
      rw [hstep, ih (acc ++ [r]), hd]
      simp

theorem contains_iff_mem (l : List String) (u : String) :
    l.contains u = true ↔ u ∈ l := List.elem_iff

theorem mem_dedupSeen (l : List SearchResult) :
    ∀ (seen : List String) (r : SearchResult),
      r ∈ dedupSeen l seen ↔
        (r.url ∉ seen ∧ l.find? (fun x => x.url == r.url) = some r) := by
  induction l with
  | nil => intro seen r; simp [dedupSeen]
  | cons x xs ih =>
    intro seen r
    by_cases hx : x.url ∈ seen
    · have hc : seen.contains x.url = true := (contains_iff_mem _ _).mpr hx
      have hd : dedupSeen (x :: xs) seen = dedupSeen xs seen := by
        show (if seen.contains x.url then _ else _) = _
        rw [if_pos hc]
      rw [hd, ih seen r]
      by_cases hu : (x.url == r.url) = true
      · have hur : x.url = r.url := by simpa using hu
        constructor
        · rintro ⟨hns, _⟩; exact absurd (hur ▸ hx) hns
        · rintro ⟨hns, _⟩; exact absurd (hur ▸ hx) hns
      · rw [@List.find?_cons_of_neg _ (fun y => y.url == r.url) x xs hu]
    · have hc : ¬ (seen.contains x.url = true) := fun h =>
        hx ((contains_iff_mem _ _).mp h)
      have hd : dedupSeen (x :: xs) seen
          = x :: dedupSeen xs (seen ++ [x.url]) := by
        show (if seen.contains x.url then _ else _) = _
        rw [if_neg hc]
      rw [hd]
      by_cases hu : (x.url == r.url) = true
      · have hur : x.url = r.url := by simpa using hu
        rw [@List.find?_cons_of_pos _ (fun y => y.url == r.url) x xs hu]
        constructor
        · intro hmem
          rcases List.mem_cons.mp hmem with hrx | hrest
          · exact ⟨fun hs => hx (hur ▸ hs), by rw [hrx]⟩
          · have := (ih _ r).mp hrest
            exact absurd (by simp [← hur]) this.1
        · rintro ⟨_, hxr⟩
          exact List.mem_cons.mpr (Or.inl (Option.some.inj hxr).symm)
      · have hur : x.url ≠ r.url := by simpa using hu
        rw [@List.find?_cons_of_neg _ (fun y => y.url == r.url) x xs hu]
        rw [List.mem_cons, ih (seen ++ [x.url]) r]
        constructor
        · rintro (hrx | ⟨hns, hf⟩)
          · exact absurd (congrArg SearchResult.url hrx.symm) hur
          · exact ⟨fun hs => hns (List.mem_append_left _ hs), hf⟩
        · rintro ⟨hns, hf⟩
          refine Or.inr ⟨?_, hf⟩
          intro hs
          rcases List.mem_append.mp hs with hs | hs
          · exact hns hs
          · have hsx : r.url = x.url := by simpa using hs
            exact hur hsx.symm

theorem dedupSeen_nodup (l : List SearchResult) :
    ∀ seen : List String,
      ((dedupSeen l seen).map (·.url)).Nodup ∧
        ∀ u ∈ (dedupSeen l seen).map (·.url), u ∉ seen := by
  induction l with
  | nil => intro seen; simp [dedupSeen]
  | cons x xs ih =>
    intro seen
    by_cases hx : x.url ∈ seen
    · have hc : seen.contains x.url = true := (contains_iff_mem _ _).mpr hx
      have hd : dedupSeen (x :: xs) seen = dedupSeen xs seen := by
        show (if seen.contains x.url then _ else _) = _
        rw [if_pos hc]
      rw [hd]; exact ih seen
    · have hc : ¬ (seen.contains x.url = true) := fun h =>
        hx ((contains_iff_mem _ _).mp h)
      have hd : dedupSeen (x :: xs) seen
          = x :: dedupSeen xs (seen ++ [x.url]) := by
        show (if seen.contains x.url then _ else _) = _
        rw [if_neg hc]
      rw [hd]
      obtain ⟨hnd, hout⟩ := ih (seen ++ [x.url])
      constructor
      · refine List.nodup_cons.mpr ⟨?_, hnd⟩
        intro hmem
        exact hout _ hmem (List.mem_append_right _ (by simp))
      · intro u hu hus
        rcases List.mem_cons.mp hu with hux | hurest
        · have hux' : u = x.url := hux
          exact hx (hux' ▸ hus)
        · exact hout _ hurest (List.mem_append_left _ hus)

theorem mergeAll_eq_dedupSeen (sets : List (List SearchResult)) :
    mergeAll sets = dedupSeen sets.flatten [] := by
  unfold mergeAll addUniqueResults
  rw [← List.foldl_flatten addStep ([], []) sets]
  have := addUniqueResults_foldl_spec sets.flatten []
  simp only [List.map_nil, List.nil_append] at this
  rw [this]

/-- C5: for any sequence of ResultSets merged through `addUniqueResults`
into an initially empty aggregate, each distinct url appears at most once,
and the entry retained for a url (its summary included) is the first one
encountered in merge order (`find?` returns the first element satisfying
the predicate). -/
theorem claim5_addUniqueResults_dedup (sets : List (List SearchResult)) :
    ((mergeAll sets).map (·.url)).Nodup ∧
      ∀ r : SearchResult,
        r ∈ mergeAll sets ↔
          sets.flatten.find? (fun x => x.url == r.url) = some r := by
  rw [mergeAll_eq_dedupSeen]
  refine ⟨(dedupSeen_nodup _ []).1, fun r => ?_⟩
  rw [mem_dedupSeen]
  simp

/-- index.ts:138 `urls.filter(Boolean)`: drop `undefined` entries and empty
strings (the only falsy string). -/
def jsFilterBoolean (urls : List (Option String)) : List String :=
  urls.filterMap (fun u =>
    match u with
    | none => none
    | some s => if s.isEmpty then none else some s)

/-- One step of JavaScript `Array.prototype.sort` modelled as an insertion
sort driven by a comparator oracle: `oracle k` is whether the k-th
comparator invocation returned a value `≤ 0` (for index.ts:139 the
comparator is `() => Math.random() - 0.5`, a fresh draw per invocation).
Returns the updated list and the next invocation index. -/
def sortInsert (oracle : Nat → Bool) : Nat → String → List String →
    List String × Nat
  | k, a, [] => ([a], k)
  | k, a, b :: bs =>
    if oracle k then (a :: b :: bs, k + 1)
    else
      let (r, k') := sortInsert oracle (k + 1) a bs
      (b :: r, k')

/-- Comparator-oracle-driven sort: with an inconsistent comparator
ECMAScript leaves the resulting order implementation-defined but requires
it to be a permutation of the input; this realizes one such sort. -/
def sortGo (oracle : Nat → Bool) : Nat → List String → List String × Nat
  | k, [] => ([], k)
  | k, a :: as =>
    let (s, k') := sortGo oracle k as
    sortInsert oracle k' a s

/-- index.ts:138 `shuffleAndFilterUrls`:
`(urls.filter(Boolean) as string[]).sort(() => Math.random() - 0.5)`. -/
def shuffleAndFilterUrls (oracle : Nat → Bool)
    (urls : List (Option String)) : List String :=
  (sortGo oracle 0 (jsFilterBoolean urls)).1

theorem sortInsert_perm (oracle : Nat → Bool) (a : String) :
    ∀ (l : List String) (k : Nat), (sortInsert oracle k a l).1.Perm (a :: l) := by
  intro l
  induction l with
  | nil => intro k; simp [sortInsert]
  | cons b bs ih =>
    intro k
    show (if oracle k then (a :: b :: bs, k + 1)
          else
            let p := sortInsert oracle (k + 1) a bs
            (b :: p.1, p.2)).1.Perm (a :: b :: bs)
    cases oracle k with
    | true => simp
    | false =>
      simp only [if_neg Bool.false_ne_true]
      exact ((ih (k + 1)).cons b).trans (List.Perm.swap a b bs)

theorem sortGo_perm (oracle : Nat → Bool) :
    ∀ (l : List String) (k : Nat), (sortGo oracle k l).1.Perm l := by
  intro l
  induction l with
  | nil => intro k; simp [sortGo]
  | cons a as ih =>
    intro k
    show (sortInsert oracle (sortGo oracle k as).2 a (sortGo oracle k as).1).1.Perm
      (a :: as)
    exact (sortInsert_perm oracle a _ _).trans ((ih k).cons a)

/-- C6: the endpoint-pool selection returns a permutation of exactly the
non-empty entries of the input (empty strings and `undefined` dropped,
nothing else dropped, nothing duplicated), and a list whose non-empty part
is a single element comes back as exactly that single-element list — for
every comparator oracle, i.e. every outcome of the random entropy source. -/
theorem claim6_shuffle_perm (oracle : Nat → Bool) (urls : List (Option String)) :
    (shuffleAndFilterUrls oracle urls).Perm (jsFilterBoolean urls) ∧
      ∀ x : String, jsFilterBoolean urls = [x] →
        shuffleAndFilterUrls oracle urls = [x] := by
  constructor
  · exact sortGo_perm oracle _ 0
  · intro x hx
    unfold shuffleAndFilterUrls
    rw [hx]
    rfl

/-- Witness for C6 at a concrete input: the single non-empty entry of
`[some "a", none, some ""]` survives as the unshuffled singleton. -/
theorem claim6_shuffle_perm_witness :
    shuffleAndFilterUrls (fun _ => true) [some "a", none, some ""] = ["a"] :=
  (claim6_shuffle_perm (fun _ => true) [some "a", none, some ""]).2 "a" (by rfl)

/-- The retry-while condition of index.ts:192 on the outcome of the latest
state of `response`: retry when `response` is still `undefined` or its
serialized payload is shorter than 10 characters.  (`!response.content` is
always false for a `fetchResults` value, whose `content` is a one-element
array; the outcome is modelled by that element's `text`.) -/
def needsRetry : Option String → Bool
  | none => true
  | some s => decide (s.length < 10)

/-- `response` keeps its previous value when an attempt throws (the catch
blocks of index.ts:187/205 only log), and is replaced on a non-throwing
attempt. -/
def updateResp (resp : Option String) (r : Option String) : Option String :=
  match r with
  | none => resp
  | some s => some s

/-- The while loop of index.ts:192-209.  `fetch attempt url` is the oracle
for the attempt's `fetchResults` call (`none` = the call threw).  `fuel` is
`maxRetries - retries`; each iteration advances `currentUrls` by
`slice(1)` while more than one url remains, then fetches `currentUrls[0]`.
Returns the final `response` and the number of fetch calls made. -/
def retryLoop (fetch : Nat → String → Option String) :
    Nat → Nat → List String → Option String → Option String × Nat
  | 0, _, _, resp => (resp, 0)
  | fuel + 1, attempt, urls, resp =>
    if needsRetry resp then
      let urls' := if 1 < urls.length then urls.drop 1 else urls
      let resp' := updateResp resp (fetch attempt (urls'.headD ""))
      let (fin, c) := retryLoop fetch fuel (attempt + 1) urls' resp'
      (fin, c + 1)
    else (resp, 0)

/-- index.ts:174 `fetchWithRetry`: the guarded first fetch of
index.ts:185-189 followed by the retry loop; also counts fetch calls. -/
def fetchWithRetry (fetch : Nat → String → Option String)
    (shuffledUrls : List String) (maxRetries : Nat) : Option String × Nat :=
  let resp0 := updateResp none (fetch 0 (shuffledUrls.headD ""))
  let (fin, c) := retryLoop fetch maxRetries 1 shuffledUrls resp0
  (fin, c + 1)

/-- The standard branch of `execute` (index.ts:374-383): return the
response when one was obtained, otherwise throw
`'No valid response received after multiple attempts.'`. -/
def executeStd (fetch : Nat → String → Option String)
    (urls : List String) : Except Unit String :=
  match (fetchWithRetry fetch urls 5).1 with
  | some r => Except.ok r
  | none => Except.error ()

/-- The url `fetchWithRetry` passes to its k-th fetch call: the rotation
advances one endpoint per retry and stays on the last endpoint once the
list is down to a single element. -/
def attemptUrl (urls : List String) (k : Nat) : String :=
  (urls.drop (min k (urls.length - 1))).headD ""

/-- Outcome of the k-th fetch attempt of a `fetchWithRetry` run. -/
def attemptOut (fetch : Nat → String → Option String) (urls : List String)
    (k : Nat) : Option String :=
  fetch k (attemptUrl urls k)

/-- The last outcome obtained among attempts `0..n-1` (later non-throwing
attempts overwrite earlier ones; throwing attempts change nothing). -/
def lastObtained (outs : Nat → Option String) (n : Nat) : Option String :=
  (List.range' 0 n).foldl (fun a j => updateResp a (outs j)) none

/-- Url-free restatement of the retry loop against a stream of attempt
outcomes, used to reason about `retryLoop`. -/
def absLoop (outs : Nat → Option String) :
    Nat → Nat → Option String → Option String × Nat
  | 0, _, resp => (resp, 0)
  | fuel + 1, k, resp =>
    if needsRetry resp then
      let (fin, c) := absLoop outs fuel (k + 1) (updateResp resp (outs k))
      (fin, c + 1)
    else (resp, 0)

theorem retryLoop_eq_absLoop (fetch : Nat → String → Option String)
    (urls : List String) (h : urls ≠ []) :
    ∀ (fuel k : Nat) (resp : Option String), 1 ≤ k →
      retryLoop fetch fuel k (urls.drop (min (k - 1) (urls.length - 1))) resp
        = absLoop (attemptOut fetch urls) fuel k resp := by
  have hn : 1 ≤ urls.length := List.length_pos.mpr h
  intro fuel
  induction fuel with
  | zero => intro k resp _; rfl
  | succ fuel ih =>
    intro k resp hk
    show (if needsRetry resp then _ else _) = (if needsRetry resp then _ else _)
    cases needsRetry resp with
    | false => rfl
    | true =>
      simp only [if_pos]
      have hcur : (urls.drop (min (k - 1) (urls.length - 1))).length
          = urls.length - min (k - 1) (urls.length - 1) := List.length_drop _ _
      by_cases hlt : k - 1 < urls.length - 1
      · have hmin : min (k - 1) (urls.length - 1) = k - 1 := by omega
        have hlen : 1 < (urls.drop (min (k - 1) (urls.length - 1))).length := by
          rw [hcur]; omega
        have hurls' :
            (urls.drop (min (k - 1) (urls.length - 1))).drop 1
              = urls.drop (min k (urls.length - 1)) := by
          rw [List.drop_drop, hmin]
          congr 1
          omega
        rw [if_pos hlen, hurls']
        have hhead : (urls.drop (min k (urls.length - 1))).headD ""
            = attemptUrl urls k := rfl
        rw [hhead]
        have hthis := ih (k + 1) (updateResp resp (attemptOut fetch urls k)) (by omega)
        rw [show k + 1 - 1 = k by omega] at hthis
        have hao : updateResp resp (fetch k (attemptUrl urls k))
            = updateResp resp (attemptOut fetch urls k) := rfl
        rw [hao, hthis]
      · have hmin : min (k - 1) (urls.length - 1) = urls.length - 1 := by omega
        have hlen : ¬ 1 < (urls.drop (min (k - 1) (urls.length - 1))).length := by
          rw [hcur]; omega
        rw [if_neg hlen]
        have hsame : urls.drop (min (k - 1) (urls.length - 1))
            = urls.drop (min k (urls.length - 1)) := by
          rw [hmin]
          congr 1
          omega
        rw [hsame]
        have hhead : (urls.drop (min k (urls.length - 1))).headD ""
            = attemptUrl urls k := rfl
        rw [hhead]
        have hthis := ih (k + 1) (updateResp resp (attemptOut fetch urls k)) (by omega)
        rw [show k + 1 - 1 = k by omega] at hthis
        have hao : updateResp resp (fetch k (attemptUrl urls k))
            = updateResp resp (attemptOut fetch urls k) := rfl
        rw [hao, hthis]

theorem needsRetry_of_none {resp : Option String} (h : resp = none) :
    needsRetry resp = true := by rw [h]; rfl

theorem ne_none_of_needsRetry_false {resp : Option String}
    (h : needsRetry resp = false) : resp ≠ none := by
  intro hn
  rw [hn] at h
  exact Bool.noConfusion h

theorem updateResp_none_iff (resp r : Option String) :
    updateResp resp r = none ↔ (resp = none ∧ r = none) := by
  cases r with
  | none => simp [updateResp]
  | some s => simp [updateResp]

theorem absLoop_none (outs : Nat → Option String) :
    ∀ (fuel k : Nat) (resp : Option String),
      (absLoop outs fuel k resp).1 = none ↔
        (resp = none ∧ ∀ j, k ≤ j → j < k + fuel → outs j = none) := by
  intro fuel
  induction fuel with
  | zero =>
    intro k resp
    constructor
    · intro h; exact ⟨h, fun j h1 h2 => absurd h2 (by omega)⟩
    · intro h; exact h.1
  | succ fuel ih =>
    intro k resp
    show ((if needsRetry resp then _ else _ : Option String × Nat).1 = none ↔ _)
    cases hr : needsRetry resp with
    | false =>
      rw [if_neg (fun hc => Bool.noConfusion hc)]
      have hne := ne_none_of_needsRetry_false hr
      constructor
      · intro h; exact absurd h hne
      · intro h; exact absurd h.1 hne
    | true =>
      rw [if_pos rfl]
      show (absLoop outs fuel (k + 1) (updateResp resp (outs k))).1 = none ↔ _
      rw [ih (k + 1) (updateResp resp (outs k))]
      rw [updateResp_none_iff]
      constructor
      · rintro ⟨⟨hresp, hout⟩, hall⟩
        refine ⟨hresp, fun j h1 h2 => ?_⟩
        rcases Nat.eq_or_lt_of_le h1 with he | hl
        · rw [← he]; exact hout
        · exact hall j hl (by omega)
      · rintro ⟨hresp, hall⟩
        exact ⟨⟨hresp, hall k (le_refl k) (by omega)⟩,
          fun j h1 h2 => hall j (by omega) (by omega)⟩

theorem absLoop_exhaust (outs : Nat → Option String) :
    ∀ (fuel k : Nat) (resp : Option String),
      needsRetry resp = true →
      (∀ j, k ≤ j → j < k + fuel → needsRetry (outs j) = true) →
      (absLoop outs fuel k resp).1
        = (List.range' k fuel).foldl (fun a j => updateResp a (outs j)) resp := by
  intro fuel
  induction fuel with
  | zero => intro k resp _ _; rfl
  | succ fuel ih =>
    intro k resp hresp hall
    show ((if needsRetry resp then _ else _ : Option String × Nat).1 = _)
    rw [hresp, if_pos rfl]
    show (absLoop outs fuel (k + 1) (updateResp resp (outs k))).1 = _
    have hup : needsRetry (updateResp resp (outs k)) = true := by
      cases ho : outs k with
      | none => simpa [updateResp] using hresp
      | some s =>
        have hk := hall k (le_refl k) (by omega)
        rw [ho] at hk
        simpa [updateResp] using hk
    rw [ih (k + 1) _ hup (fun j h1 h2 => hall j (by omega) (by omega))]
    rw [List.range'_succ, List.foldl_cons]

theorem retryLoop_calls_le (fetch : Nat → String → Option String) :
    ∀ (fuel attempt : Nat) (urls : List String) (resp : Option String),
      (retryLoop fetch fuel attempt urls resp).2 ≤ fuel := by
  intro fuel
  induction fuel with
  | zero => intro _ _ _; exact Nat.le_refl 0
  | succ fuel ih =>
    intro attempt urls resp
    show (if needsRetry resp then _ else _ : Option String × Nat).2 ≤ fuel + 1
    cases hr : needsRetry resp with
    | false =>
      rw [if_neg (fun hc => Bool.noConfusion hc)]
      exact Nat.zero_le _
    | true =>
      rw [if_pos rfl]
      have := ih (attempt + 1)
        (if 1 < urls.length then urls.drop 1 else urls)
        (updateResp resp
          (fetch attempt
            ((if 1 < urls.length then urls.drop 1 else urls).headD "")))
      show _ + 1 ≤ fuel + 1
      omega

/-- C10: `fetchWithRetry` with `maxRetries = 5` always terminates (it is a
total function of its oracles) and performs at most `maxRetries + 1 = 6`
fetch calls: one initial attempt plus at most five retries, for every
endpoint list and every sequence of fetch outcomes. -/
theorem claim10_fetchWithRetry_call_bound (fetch : Nat → String → Option String)
    (urls : List String) :
    (fetchWithRetry fetch urls 5).2 ≤ 6 := by
  have := retryLoop_calls_le fetch 5 1 urls
    (updateResp none (fetch 0 (urls.headD "")))
  show (retryLoop fetch 5 1 urls
    (updateResp none (fetch 0 (urls.headD "")))).2 + 1 ≤ 6
  omega

/-- C1: over a non-empty shuffled endpoint list, the standard-mode call
raises its terminal error if and only if every one of the six attempts
threw; and whenever every attempt fails the retry bar (threw, or payload
below the length-10 threshold), the retry budget is exhausted and the value
returned is the last outcome obtained from any attempt (even an empty or
below-threshold one). -/
theorem claim1_retry_last_outcome (fetch : Nat → String → Option String)
    (urls : List String) (h : urls ≠ []) :
    (executeStd fetch urls = Except.error () ↔
        ∀ k, k < 6 → attemptOut fetch urls k = none) ∧
      ((∀ k, k < 6 → needsRetry (attemptOut fetch urls k) = true) →
        (fetchWithRetry fetch urls 5).1
          = lastObtained (attemptOut fetch urls) 6) := by
  have hhead : urls.headD "" = attemptUrl urls 0 := by
    simp [attemptUrl]
  have hbridge := retryLoop_eq_absLoop fetch urls h 5 1
    (updateResp none (attemptOut fetch urls 0)) (le_refl 1)
  rw [show (1 : Nat) - 1 = 0 by rfl, Nat.zero_min, List.drop_zero] at hbridge
  have hmain : (fetchWithRetry fetch urls 5).1
      = (absLoop (attemptOut fetch urls) 5 1
          (updateResp none (attemptOut fetch urls 0))).1 := by
    unfold fetchWithRetry
    rw [hhead]
    show (retryLoop fetch 5 1 urls (updateResp none (attemptOut fetch urls 0))).1
      = _
    rw [hbridge]
  constructor
  · have hiff : (fetchWithRetry fetch urls 5).1 = none ↔
        ∀ k, k < 6 → attemptOut fetch urls k = none := by
      rw [hmain, absLoop_none, updateResp_none_iff]
      constructor
      · rintro ⟨⟨_, h0⟩, hall⟩ k hk
        rcases Nat.eq_zero_or_pos k with h0k | hpos
        · rw [h0k]; exact h0
        · exact hall k hpos (by omega)
      · intro hall
        exact ⟨⟨rfl, hall 0 (by omega)⟩, fun j h1 h2 => hall j (by omega)⟩
    unfold executeStd
    cases hfin : (fetchWithRetry fetch urls 5).1 with
    | none =>
      constructor
      · intro _; exact hiff.mp hfin
      · intro _; rfl
    | some r =>
      constructor
      · intro habs; exact Except.noConfusion habs
      · intro hall
        rw [hiff.mpr hall] at hfin
        exact Option.noConfusion hfin
  · intro hall
    rw [hmain]
    have hup : needsRetry (updateResp none (attemptOut fetch urls 0)) = true := by
      cases ho : attemptOut fetch urls 0 with
      | none => rfl
      | some s =>
        have h0 := hall 0 (by omega)
        rw [ho] at h0
        exact h0
    rw [absLoop_exhaust _ 5 1 _ hup (fun j h1 h2 => hall j (by omega))]
    unfold lastObtained
    rw [show (6 : Nat) = 5 + 1 by rfl, List.range'_succ, List.foldl_cons]
    rfl

/-- Witness for C1 at a concrete input: with a single endpoint and an
oracle on which every attempt throws, the standard-mode call raises the
terminal error. -/
theorem claim1_retry_last_outcome_witness :
    executeStd (fun _ _ => none) ["a"] = Except.error () :=
  (claim1_retry_last_outcome (fun _ _ => none) ["a"]
      (by decide)).1.mpr (fun _ _ => rfl)

/-- One output character of `JSON.stringify` for a character of a string
value: quote, backslash and control characters are escaped as in
ECMA-404/ECMA-262 (well-formed `JSON.stringify`). -/
def jsonEscapeChar (c : Char) : String :=
  if c = '"' then "\\\""
  else if c = '\\' then "\\\\"
  else if c = Char.ofNat 8 then "\\b"
  else if c = Char.ofNat 9 then "\\t"
  else if c = Char.ofNat 10 then "\\n"
  else if c = Char.ofNat 12 then "\\f"
  else if c = Char.ofNat 13 then "\\r"
  else if c.toNat < 32 then
    "\\u00" ++ String.mk
      [(Nat.digitChar (c.toNat / 16)), (Nat.digitChar (c.toNat % 16))]
  else String.singleton c

def jsonEscape (s : String) : String :=
  String.join (s.data.map jsonEscapeChar)

/-- `JSON.stringify` of one `{ url, summary }` object (keys in insertion
order, as the source constructs the object). -/
def jsonStringifyResult (r : SearchResult) : String :=
  "\x7b\"url\":\"" ++ jsonEscape r.url ++ "\",\"summary\":\""
    ++ jsonEscape r.summary ++ "\"\x7d"

/-- Comma-separated member list of `JSON.stringify` of an array. -/
def jsonStringifyList : List SearchResult → String
  | [] => ""
  | [r] => jsonStringifyResult r
  | r :: rs => jsonStringifyResult r ++ "," ++ jsonStringifyList rs

/-- `JSON.stringify` of an array of `{ url, summary }` objects; this is the
`text` payload `fetchResults` returns (index.ts:316). -/
def jsonStringify (l : List SearchResult) : String :=
  "[" ++ jsonStringifyList l ++ "]"

theorem jsonStringifyResult_length (r : SearchResult) :
    23 ≤ (jsonStringifyResult r).length := by
  unfold jsonStringifyResult
  simp only [String.length_append]
  have h1 : ("\x7b\"url\":\"" : String).length = 8 := rfl
  have h2 : ("\",\"summary\":\"" : String).length = 13 := rfl
  have h3 : ("\"\x7d" : String).length = 2 := rfl
  omega

theorem jsonStringify_big_iff (l : List SearchResult) :
    10 < (jsonStringify l).length ↔ l ≠ [] := by
  cases l with
  | nil =>
    constructor
    · intro h; exact absurd h (by decide)
    · intro h; exact absurd rfl h
  | cons r rs =>
    constructor
    · intro _; exact List.cons_ne_nil r rs
    · intro _
      have hobj := jsonStringifyResult_length r
      have hlist : (jsonStringifyResult r).length
          ≤ (jsonStringifyList (r :: rs)).length := by
        cases rs with
        | nil => exact Nat.le_refl _
        | cons r2 rs2 =>
          show (jsonStringifyResult r).length
            ≤ (jsonStringifyResult r ++ "," ++ jsonStringifyList (r2 :: rs2)).length
          rw [String.length_append, String.length_append]
          omega
      show 10 < ("[" ++ jsonStringifyList (r :: rs) ++ "]").length
      rw [String.length_append, String.length_append]
      have h1 : ("[" : String).length = 1 := rfl
      omega

/-- index.ts:143 `fetchMultiplePages`: fetch pages `1..maxPages` from one
endpoint.  `pageFetch page` is the oracle for that page's `fetchResults`
outcome (`none` = the call threw, caught and logged at index.ts:166; `some
results` = the parsed `resultsArray`, whose serialized `text` is
`jsonStringify results` so that `JSON.parse` recovers `results`).  A page
contributes its results, deduplicated, only when the serialized payload is
longer than 10 characters; `pageResponse.content` is always a one-element
array, and a string is truthy iff non-empty, which payload length > 10
implies.  Also counts the `fetchResults` calls (one per page). -/
def fetchMultiplePages (pageFetch : Nat → Option (List SearchResult))
    (maxPages : Nat) : List SearchResult × Nat :=
  let final := (List.range maxPages).foldl
    (fun (st : (List SearchResult × List String) × Nat) page =>
      match pageFetch (page + 1) with
      | none => (st.1, st.2 + 1)
      | some pageResults =>
        let pageText := jsonStringify pageResults
        if 10 < pageText.length then
          (addUniqueResults st.1 pageResults, st.2 + 1)
        else (st.1, st.2 + 1))
    (([], []), 0)
  (final.1.1, final.2)

theorem fetchMultiplePages_calls (pageFetch : Nat → Option (List SearchResult))
    (maxPages : Nat) : (fetchMultiplePages pageFetch maxPages).2 = maxPages := by
  unfold fetchMultiplePages
  have hgen : ∀ (l : List Nat) (st : (List SearchResult × List String) × Nat),
      (l.foldl
        (fun (st : (List SearchResult × List String) × Nat) page =>
          match pageFetch (page + 1) with
          | none => (st.1, st.2 + 1)
          | some pageResults =>
            let pageText := jsonStringify pageResults
            if 10 < pageText.length then
              (addUniqueResults st.1 pageResults, st.2 + 1)
            else (st.1, st.2 + 1))
        st).2 = st.2 + l.length := by
    intro l
    induction l with
    | nil => intro st; simp
    | cons p ps ih =>
      intro st
      rw [List.foldl_cons]
      cases hp : pageFetch (p + 1) with
      | none =>
        rw [ih]
        simp only [List.length_cons]
        omega
      | some pageResults =>
        by_cases hb : 10 < (jsonStringify pageResults).length
        · rw [show (match some pageResults with
              | none => (st.1, st.2 + 1)
              | some pageResults =>
                let pageText := jsonStringify pageResults
                if 10 < pageText.length then
                  (addUniqueResults st.1 pageResults, st.2 + 1)
                else (st.1, st.2 + 1))
              = (addUniqueResults st.1 pageResults, st.2 + 1) by
            simp only [if_pos hb]]
          rw [ih]
          simp only [List.length_cons]
          omega
        · rw [show (match some pageResults with
              | none => (st.1, st.2 + 1)
              | some pageResults =>
                let pageText := jsonStringify pageResults
                if 10 < pageText.length then
                  (addUniqueResults st.1 pageResults, st.2 + 1)
                else (st.1, st.2 + 1))
              = (st.1, st.2 + 1) by
            simp only [if_neg hb]]
          rw [ih]
          simp only [List.length_cons]
          omega
  rw [hgen]
  simp

/-- The detailed branch loop of `execute` (index.ts:355-369): iterate the
shuffled endpoints, break once `successfulServers >= 3`, merge each
endpoint's multi-page results into the aggregate, and count an endpoint as
successful when `serverResults.length > 0`.  The catch of index.ts:366 is
unreachable (`fetchMultiplePages` catches per-page errors itself and is a
total function here).  Also counts the `fetchResults` calls performed. -/
def detailedGo : List (Nat → Option (List SearchResult)) →
    List SearchResult → List String → Nat → List SearchResult × Nat
  | [], acc, _, _ => (acc, 0)
  | e :: rest, acc, proc, succ =>
    if 3 ≤ succ then (acc, 0)
    else
      let sr := fetchMultiplePages e 3
      let merged := addUniqueResults (acc, proc) sr.1
      let succ' := if 0 < sr.1.length then succ + 1 else succ
      let next := detailedGo rest merged.1 merged.2 succ'
      (next.1, sr.2 + next.2)

/-- The detailed branch of `execute` (index.ts:345-373): run the loop over
the shuffled endpoints with empty accumulator and zero success count. -/
def executeDetailed (es : List (Nat → Option (List SearchResult))) :
    List SearchResult × Nat :=
  detailedGo es [] [] 0

/-- Specification-side: the prefix of endpoints the detailed loop actually
consults, starting from success count `succ`: it stops before the first
endpoint at which three successes have already accumulated.  An endpoint
counts as successful exactly when its multi-page fetch returned at least
one result. -/
def consultedEndpoints : List (Nat → Option (List SearchResult)) → Nat →
    List (Nat → Option (List SearchResult))
  | [], _ => []
  | e :: rest, succ =>
    if 3 ≤ succ then []
    else
      e :: consultedEndpoints rest
        (if 0 < (fetchMultiplePages e 3).1.length then succ + 1 else succ)

/-- Specification-side: merge the multi-page results of a list of endpoints
into an aggregate, first-seen url wins. -/
def mergeEndpoints (es : List (Nat → Option (List SearchResult))) :
    List SearchResult :=
  (es.foldl (fun p e => addUniqueResults p (fetchMultiplePages e 3).1)
    ([], [])).1

theorem detailedGo_spec :
    ∀ (es : List (Nat → Option (List SearchResult)))
      (acc : List SearchResult) (proc : List String) (succ : Nat),
      detailedGo es acc proc succ
        = (((consultedEndpoints es succ).foldl
              (fun p e => addUniqueResults p (fetchMultiplePages e 3).1)
              (acc, proc)).1,
           3 * (consultedEndpoints es succ).length) := by
  intro es
  induction es with
  | nil => intro acc proc succ; rfl
  | cons e rest ih =>
    intro acc proc succ
    by_cases hs : 3 ≤ succ
    · show (if 3 ≤ succ then _ else _) = _
      rw [if_pos hs]
      have hc : consultedEndpoints (e :: rest) succ = [] := by
        show (if 3 ≤ succ then _ else _) = _
        rw [if_pos hs]
      rw [hc]
      rfl
    · show (if 3 ≤ succ then _ else _) = _
      rw [if_neg hs]
      have hc : consultedEndpoints (e :: rest) succ
          = e :: consultedEndpoints rest
              (if 0 < (fetchMultiplePages e 3).1.length then succ + 1
               else succ) := by
        show (if 3 ≤ succ then _ else _) = _
        rw [if_neg hs]
      rw [hc]
      show ((detailedGo rest (addUniqueResults (acc, proc)
              (fetchMultiplePages e 3).1).1
            (addUniqueResults (acc, proc) (fetchMultiplePages e 3).1).2
            (if 0 < (fetchMultiplePages e 3).1.length then succ + 1
             else succ)).1,
          (fetchMultiplePages e 3).2
            + (detailedGo rest (addUniqueResults (acc, proc)
                (fetchMultiplePages e 3).1).1
              (addUniqueResults (acc, proc) (fetchMultiplePages e 3).1).2
              (if 0 < (fetchMultiplePages e 3).1.length then succ + 1
               else succ)).2) = _
      rw [ih]
      rw [fetchMultiplePages_calls]
      rw [List.foldl_cons, List.length_cons]
      have hpair : addUniqueResults (acc, proc) (fetchMultiplePages e 3).1
          = ((addUniqueResults (acc, proc) (fetchMultiplePages e 3).1).1,
             (addUniqueResults (acc, proc) (fetchMultiplePages e 3).1).2) := rfl
      rw [← hpair]
      have harith : 3 + 3 * (consultedEndpoints rest
          (if 0 < (fetchMultiplePages e 3).1.length then succ + 1
           else succ)).length
        = 3 * ((consultedEndpoints rest
            (if 0 < (fetchMultiplePages e 3).1.length then succ + 1
             else succ)).length + 1) := by omega
      rw [harith]

/-- C2: the detailed-mode aggregate equals the merge over exactly the
consulted prefix of the shuffled endpoint list — the prefix that stops
once three endpoints succeeded, an endpoint being counted successful iff
its fetch contributed at least one result — the number of page-fetch
calls is three per consulted endpoint (endpoints past the third
successful one are never fetched from), and when fewer than three
endpoints succeed the whole list is consulted and the accumulated
aggregate is still returned (no error is possible: the function is
total). -/
theorem claim2_detailed_maxServers
    (es : List (Nat → Option (List SearchResult))) :
    (executeDetailed es).1 = mergeEndpoints (consultedEndpoints es 0) ∧
      (executeDetailed es).2 = 3 * (consultedEndpoints es 0).length ∧
      (es.countP (fun e => 0 < (fetchMultiplePages e 3).1.length) < 3 →
        consultedEndpoints es 0 = es) := by
  refine ⟨?_, ?_, ?_⟩
  · unfold executeDetailed mergeEndpoints
    rw [detailedGo_spec]
  · unfold executeDetailed
    rw [detailedGo_spec]
  · have hgen : ∀ (l : List (Nat → Option (List SearchResult))) (succ : Nat),
        succ + l.countP (fun e => 0 < (fetchMultiplePages e 3).1.length) < 3 →
        consultedEndpoints l succ = l := by
      intro l
      induction l with
      | nil => intro succ _; rfl
      | cons e rest ih =>
        intro succ hlt
        have hcount := List.countP_cons
          (fun e => decide (0 < (fetchMultiplePages e 3).1.length)) e rest
        have hs : ¬ 3 ≤ succ := by omega
        show (if 3 ≤ succ then _ else _) = _
        rw [if_neg hs]
        by_cases hly : 0 < (fetchMultiplePages e 3).1.length
        · rw [if_pos hly]
          rw [ih (succ + 1) (by rw [hcount] at hlt; simp [hly] at hlt; omega)]
        · rw [if_neg hly]
          rw [ih succ (by rw [hcount] at hlt; simp [hly] at hlt; omega)]
    intro hlt
    exact hgen es 0 (by omega)

/-- Witness for C2 at a concrete input: a single always-throwing endpoint
is not successful, so the whole (one-element) list is consulted. -/
theorem claim2_detailed_maxServers_witness :
    consultedEndpoints [fun _ => none] 0 = [fun _ => none] :=
  (claim2_detailed_maxServers [fun _ => none]).2.2 (by decide)

/-! Backtracking matchers over `List Char`, in continuation-passing style,
mirroring the JavaScript regular expressions of `fetchResults`
(index.ts:292, 298, 300).  `litCI` is a case-insensitive literal (the `i`
flag), `clsOne` one character of a class, `greedy` a greedy `[...]​*` with
backtracking, `plusCap`/`starCap` a capturing greedy `[...]​+`/`[...]​*`, and
`lazyCap` the capturing lazy `(.*?)` under the `s` flag (any character,
shortest first). -/

def litCI {α : Type} : List Char → (List Char → Option α) → List Char → Option α
  | [], k, s => k s
  | p :: ps, k, s =>
    match s with
    | [] => none
    | c :: cs => if c.toLower = p.toLower then litCI ps k cs else none

def clsOne {α : Type} (p : Char → Bool) (k : List Char → Option α) :
    List Char → Option α
  | [] => none
  | c :: cs => if p c then k cs else none

def greedy {α : Type} (p : Char → Bool) (k : List Char → Option α) :
    List Char → Option α
  | [] => k []
  | c :: cs =>
    if p c then
      match greedy p k cs with
      | some r => some r
      | none => k (c :: cs)
    else k (c :: cs)

def starCap {α : Type} (p : Char → Bool)
    (k : List Char → List Char → Option α) : List Char → Option α
  | [] => k [] []
  | c :: cs =>
    if p c then
      match starCap p (fun cap rest => k (c :: cap) rest) cs with
      | some r => some r
      | none => k [] (c :: cs)
    else k [] (c :: cs)

def plusCap {α : Type} (p : Char → Bool)
    (k : List Char → List Char → Option α) : List Char → Option α
  | [] => none
  | c :: cs =>
    if p c then starCap p (fun cap rest => k (c :: cap) rest) cs
    else none

def lazyCap {α : Type} (k : List Char → List Char → Option α) :
    List Char → Option α
  | [] => k [] []
  | c :: cs =>
    match k [] (c :: cs) with
    | some r => some r
    | none => lazyCap (fun cap rest => k (c :: cap) rest) cs

/-- Leftmost-match search: try the matcher at each start position in
order, as `String.prototype.match` / `RegExp.prototype.exec` do. -/
def searchFrom {α : Type} (m : List Char → Option α) : List Char → Option α
  | [] => m []
  | c :: cs =>
    match m (c :: cs) with
    | some r => some r
    | none => searchFrom m cs

theorem litCI_bound {α : Type} (ps : List Char) (k : List Char → Option α) :
    ∀ (s : List Char) (r : α), litCI ps k s = some r →
      ∃ t, t.length + ps.length ≤ s.length ∧ k t = some r := by
  induction ps with
  | nil =>
    intro s r h
    exact ⟨s, by simp, h⟩
  | cons p ps ih =>
    intro s r h
    cases s with
    | nil => exact absurd h (by simp [litCI])
    | cons c cs =>
      show ∃ t, _ ∧ _
      rw [show litCI (p :: ps) k (c :: cs)
          = if c.toLower = p.toLower then litCI ps k cs else none from rfl] at h
      by_cases hc : c.toLower = p.toLower
      · rw [if_pos hc] at h
        obtain ⟨t, hlen, hk⟩ := ih cs r h
        exact ⟨t, by simp only [List.length_cons]; omega, hk⟩
      · rw [if_neg hc] at h
        exact absurd h (by simp)

theorem clsOne_bound {α : Type} (p : Char → Bool) (k : List Char → Option α)
    (s : List Char) (r : α) (h : clsOne p k s = some r) :
    ∃ t, t.length + 1 ≤ s.length ∧ k t = some r := by
  cases s with
  | nil => exact absurd h (by simp [clsOne])
  | cons c cs =>
    rw [show clsOne p k (c :: cs) = if p c then k cs else none from rfl] at h
    by_cases hc : p c
    · rw [if_pos hc] at h
      exact ⟨cs, by simp, h⟩
    · rw [if_neg hc] at h
      exact absurd h (by simp)

theorem greedy_bound {α : Type} (p : Char → Bool) (k : List Char → Option α) :
    ∀ (s : List Char) (r : α), greedy p k s = some r →
      ∃ t, t.length ≤ s.length ∧ k t = some r := by
  intro s
  induction s with
  | nil => intro r h; exact ⟨[], by simp, h⟩
  | cons c cs ih =>
    intro r h
    rw [show greedy p k (c :: cs)
        = if p c then
            match greedy p k cs with
            | some r => some r
            | none => k (c :: cs)
          else k (c :: cs) from rfl] at h
    by_cases hc : p c
    · rw [if_pos hc] at h
      cases hg : greedy p k cs with
      | some r2 =>
        rw [hg] at h
        obtain ⟨t, hlen, hk⟩ := ih r2 hg
        cases h
        exact ⟨t, by simp only [List.length_cons]; omega, hk⟩
      | none =>
        rw [hg] at h
        exact ⟨c :: cs, le_refl _, h⟩
    · rw [if_neg hc] at h
      exact ⟨c :: cs, le_refl _, h⟩

theorem starCap_bound {α : Type} (p : Char → Bool) :
    ∀ (s : List Char) (k : List Char → List Char → Option α) (r : α),
      starCap p k s = some r →
      ∃ cap t, t.length ≤ s.length ∧ k cap t = some r := by
  intro s
  induction s with
  | nil =>
    intro k r h
    exact ⟨[], [], by simp, h⟩
  | cons c cs ih =>
    intro k r h
    rw [show starCap p k (c :: cs)
        = if p c then
            match starCap p (fun cap rest => k (c :: cap) rest) cs with
            | some r => some r
            | none => k [] (c :: cs)
          else k [] (c :: cs) from rfl] at h
    by_cases hc : p c
    · rw [if_pos hc] at h
      cases hg : starCap p (fun cap rest => k (c :: cap) rest) cs with
      | some r2 =>
        rw [hg] at h
        obtain ⟨cap, t, hlen, hk⟩ := ih _ r2 hg
        cases h
        exact ⟨c :: cap, t, by simp only [List.length_cons]; omega, hk⟩
      | none =>
        rw [hg] at h
        exact ⟨[], c :: cs, le_refl _, h⟩
    · rw [if_neg hc] at h
      exact ⟨[], c :: cs, le_refl _, h⟩

theorem plusCap_bound {α : Type} (p : Char → Bool)
    (k : List Char → List Char → Option α) (s : List Char) (r : α)
    (h : plusCap p k s = some r) :
    ∃ c cap t, t.length + 1 ≤ s.length ∧ k (c :: cap) t = some r := by
  cases s with
  | nil => exact absurd h (by simp [plusCap])
  | cons c cs =>
    rw [show plusCap p k (c :: cs)
        = if p c then starCap p (fun cap rest => k (c :: cap) rest) cs
          else none from rfl] at h
    by_cases hc : p c
    · rw [if_pos hc] at h
      obtain ⟨cap, t, hlen, hk⟩ := starCap_bound p cs _ r h
      exact ⟨c, cap, t, by simp only [List.length_cons]; omega, hk⟩
    · rw [if_neg hc] at h
      exact absurd h (by simp)

theorem lazyCap_bound {α : Type} :
    ∀ (s : List Char) (k : List Char → List Char → Option α) (r : α),
      lazyCap k s = some r →
      ∃ cap t, t.length ≤ s.length ∧ k cap t = some r := by
  intro s
  induction s with
  | nil =>
    intro k r h
    exact ⟨[], [], by simp, h⟩
  | cons c cs ih =>
    intro k r h
    rw [show lazyCap k (c :: cs)
        = match k [] (c :: cs) with
          | some r => some r
          | none => lazyCap (fun cap rest => k (c :: cap) rest) cs from rfl] at h
    cases hk0 : k [] (c :: cs) with
    | some r2 =>
      rw [hk0] at h
      cases h
      exact ⟨[], c :: cs, le_refl _, hk0⟩
    | none =>
      rw [hk0] at h
      obtain ⟨cap, t, hlen, hk⟩ := ih _ r h
      exact ⟨c :: cap, t, by simp only [List.length_cons]; omega, hk⟩

theorem searchFrom_bound {α : Type} (m : List Char → Option α) :
    ∀ (s : List Char) (r : α), searchFrom m s = some r →
      ∃ t, t.length ≤ s.length ∧ m t = some r := by
  intro s
  induction s with
  | nil => intro r h; exact ⟨[], by simp, h⟩
  | cons c cs ih =>
    intro r h
    rw [show searchFrom m (c :: cs)
        = match m (c :: cs) with
          | some r => some r
          | none => searchFrom m cs from rfl] at h
    cases hm : m (c :: cs) with
    | some r2 =>
      rw [hm] at h
      cases h
      exact ⟨c :: cs, le_refl _, hm⟩
    | none =>
      rw [hm] at h
      obtain ⟨t, hlen, hmt⟩ := ih r h
      exact ⟨t, by simp only [List.length_cons]; omega, hmt⟩

def notGt (c : Char) : Bool := c != '>'

def notQuote (c : Char) : Bool := c != '"' && c != '\''

def isQuote (c : Char) : Bool := c == '"' || c == '\''

/-- The url regex of index.ts:298 applied at one start position:
`<a[^>]*href=["']([^"']+)["'][^>]*class=["'][^"']*url_header[^"']*["']`
with the `i` flag; yields the captured href value. -/
def matchUrlAt (s : List Char) : Option String :=
  litCI "<a".data
    (greedy notGt
      (litCI "href=".data
        (clsOne isQuote
          (plusCap notQuote (fun cap rest =>
            clsOne isQuote
              (greedy notGt
                (litCI "class=".data
                  (clsOne isQuote
                    (greedy notQuote
                      (litCI "url_header".data
                        (greedy notQuote
                          (clsOne isQuote
                            (fun _ => some (String.mk cap)))))))))
              rest))))) s

/-- `blockHtml.match(urlRegex)`: leftmost match, capture group 1. -/
def matchUrl (b : List Char) : Option String := searchFrom matchUrlAt b

/-- The summary regex of index.ts:300 applied at one start position:
`<p[^>]*class=["'][^"']*content[^"']*["'][^>]*>(.*?)</p>` with the `i` and
`s` flags; yields the captured paragraph body. -/
def matchSummaryAt (s : List Char) : Option (List Char) :=
  litCI "<p".data
    (greedy notGt
      (litCI "class=".data
        (clsOne isQuote
          (greedy notQuote
            (litCI "content".data
              (greedy notQuote
                (clsOne isQuote
                  (greedy notGt
                    (litCI ">".data
                      (lazyCap (fun cap rest =>
                        litCI "</p>".data (fun _ => some cap) rest))))))))))) s

/-- `blockHtml.match(summaryRegex)`: leftmost match, capture group 1. -/
def matchSummary (b : List Char) : Option (List Char) :=
  searchFrom matchSummaryAt b

/-- The result-block regex of index.ts:292 applied at one start position:
`<article[^>]*class=["'][^"']*result[^"']*["'][^>]*>(.*?)</article>` with
the `g`, `i` and `s` flags; yields the captured block body and the
remainder of the document after the match (where the `g`-loop resumes). -/
def matchBlockAt (s : List Char) : Option (List Char × List Char) :=
  litCI "<article".data
    (greedy notGt
      (litCI "class=".data
        (clsOne isQuote
          (greedy notQuote
            (litCI "result".data
              (greedy notQuote
                (clsOne isQuote
                  (greedy notGt
                    (litCI ">".data
                      (lazyCap (fun cap rest =>
                        litCI "</article>".data
                          (fun rest2 => some (cap, rest2)) rest))))))))))) s

/-- One step of the `exec` loop: leftmost block match. -/
def blockSearch (s : List Char) : Option (List Char × List Char) :=
  searchFrom matchBlockAt s

theorem matchBlockAt_rest_lt (s : List Char) (cap rest : List Char)
    (h : matchBlockAt s = some (cap, rest)) : rest.length < s.length := by
  obtain ⟨t1, hl1, h⟩ := litCI_bound _ _ _ _ h
  obtain ⟨t2, hl2, h⟩ := greedy_bound _ _ _ _ h
  obtain ⟨t3, hl3, h⟩ := litCI_bound _ _ _ _ h
  obtain ⟨t4, hl4, h⟩ := clsOne_bound _ _ _ _ h
  obtain ⟨t5, hl5, h⟩ := greedy_bound _ _ _ _ h
  obtain ⟨t6, hl6, h⟩ := litCI_bound _ _ _ _ h
  obtain ⟨t7, hl7, h⟩ := greedy_bound _ _ _ _ h
  obtain ⟨t8, hl8, h⟩ := clsOne_bound _ _ _ _ h
  obtain ⟨t9, hl9, h⟩ := greedy_bound _ _ _ _ h
  obtain ⟨t10, hl10, h⟩ := litCI_bound _ _ _ _ h
  obtain ⟨cap2, t11, hl11, h⟩ := lazyCap_bound _ _ _ h
  simp only [] at h
  obtain ⟨t12, hl12, h⟩ := litCI_bound _ _ _ _ h
  simp only [Option.some.injEq, Prod.mk.injEq] at h
  obtain ⟨-, hrest⟩ := h
  subst hrest
  simp only [List.length_cons, String.data] at hl1 hl3 hl6 hl10 hl12
  omega

theorem blockSearch_rest_lt (s : List Char) (cap rest : List Char)
    (h : blockSearch s = some (cap, rest)) : rest.length < s.length := by
  obtain ⟨t, hlen, hm⟩ := searchFrom_bound _ _ _ h
  have := matchBlockAt_rest_lt t cap rest hm
  omega

/-- The `while ((blockMatch = resultBlockRegex.exec(html)) !== null)` loop
of index.ts:295, with explicit fuel (each match strictly shrinks the
remainder — `blockSearch_rest_lt` — so fuel `s.length` never runs out;
`execBlocksGo_fuel_irrelevant` makes the adequacy precise): collect the
captured block bodies left to right, each search resuming after the
previous match. -/
def execBlocksGo : Nat → List Char → List (List Char)
  | 0, _ => []
  | fuel + 1, s =>
    match blockSearch s with
    | none => []
    | some (cap, rest) => cap :: execBlocksGo fuel rest

def execBlocks (s : List Char) : List (List Char) := execBlocksGo s.length s

theorem execBlocksGo_fuel_irrelevant :
    ∀ (fuel : Nat) (s : List Char) (fuel' : Nat),
      s.length ≤ fuel → s.length ≤ fuel' →
      execBlocksGo fuel s = execBlocksGo fuel' s := by
  intro fuel
  induction fuel with
  | zero =>
    intro s fuel' hf hf'
    have hs : s = [] := List.length_eq_zero.mp (by omega)
    subst hs
    cases fuel' with
    | zero => rfl
    | succ fuel' =>
      show [] = (match blockSearch [] with
        | none => []
        | some (cap, rest) => cap :: execBlocksGo fuel' rest)
      rfl
  | succ fuel ih =>
    intro s fuel' hf hf'
    cases fuel' with
    | zero =>
      have hs : s = [] := List.length_eq_zero.mp (by omega)
      subst hs
      rfl
    | succ fuel' =>
      show (match blockSearch s with
        | none => []
        | some (cap, rest) => cap :: execBlocksGo fuel rest)
        = (match blockSearch s with
        | none => []
        | some (cap, rest) => cap :: execBlocksGo fuel' rest)
      cases hb : blockSearch s with
      | none => rfl
      | some pr =>
        obtain ⟨cap, rest⟩ := pr
        have hlt := blockSearch_rest_lt s cap rest hb
        show cap :: execBlocksGo fuel rest = cap :: execBlocksGo fuel' rest
        rw [ih rest fuel' (by omega) (by omega)]

/-- Remainder of the input after the first `>`, i.e. after one match of the
tag regex `<[^>]*>` whose `[^>]*` run necessarily stops at the first `>`. -/
def findTagEnd : List Char → Option (List Char)
  | [] => none
  | c :: cs => if c = '>' then some cs else findTagEnd cs

theorem findTagEnd_length :
    ∀ (l after : List Char), findTagEnd l = some after →
      after.length < l.length := by
  intro l
  induction l with
  | nil => intro after h; exact absurd h (by simp [findTagEnd])
  | cons c cs ih =>
    intro after h
    rw [show findTagEnd (c :: cs)
        = if c = '>' then some cs else findTagEnd cs from rfl] at h
    by_cases hc : c = '>'
    · rw [if_pos hc] at h
      cases h
      simp
    · rw [if_neg hc] at h
      have := ih after h
      simp only [List.length_cons]
      omega

/-- `summaryMatch[1].replace(/<[^>]*>/g, '')` (index.ts:303): delete every
tag-shaped region, scanning left to right; a `<` with no later `>` starts
no match and is kept. -/
def stripTags (s : List Char) : List Char :=
  match s with
  | [] => []
  | c :: rest =>
    if c = '<' then
      match h : findTagEnd rest with
      | some after => stripTags after
      | none => c :: stripTags rest
    else c :: stripTags rest
termination_by s.length
decreasing_by
  all_goals first
    | (have hfe := findTagEnd_length _ _ h
       simp only [List.length_cons]
       omega)
    | (simp only [List.length_cons]
       omega)

/-- The per-block body of the extraction loop (index.ts:295-311): the url
is the captured href or the sentinel `'No URL found'`; the summary is the
tag-stripped, trimmed captured paragraph or the placeholder `'No summary
found'`; the entry is pushed only when the url differs from the sentinel.
(`.trim()` is modelled by `String.trim`, which strips the ASCII whitespace
relevant here.) -/
def blockEntry (b : List Char) : Option SearchResult :=
  let url : String :=
    match matchUrl b with
    | some u => u
    | none => "No URL found"
  let summary : String :=
    match matchSummary b with
    | some smm => (String.mk (stripTags smm)).trim
    | none => "No summary found"
  if url = "No URL found" then none else some { url := url, summary := summary }

/-- The Result Extractor of `fetchResults` (index.ts:289-311): all block
matches, each contributing its entry when one is pushed. -/
def extractResults (html : String) : List SearchResult :=
  (execBlocks html.data).filterMap blockEntry

theorem matchUrl_ne_empty (b : List Char) (u : String)
    (h : matchUrl b = some u) : u ≠ "" := by
  obtain ⟨t0, -, h⟩ := searchFrom_bound _ _ _ h
  unfold matchUrlAt at h
  obtain ⟨t1, -, h⟩ := litCI_bound _ _ _ _ h
  obtain ⟨t2, -, h⟩ := greedy_bound _ _ _ _ h
  obtain ⟨t3, -, h⟩ := litCI_bound _ _ _ _ h
  obtain ⟨t4, -, h⟩ := clsOne_bound _ _ _ _ h
  obtain ⟨c, cap, t5, -, h⟩ := plusCap_bound _ _ _ _ h
  simp only [] at h
  obtain ⟨t6, -, h⟩ := clsOne_bound _ _ _ _ h
  obtain ⟨t7, -, h⟩ := greedy_bound _ _ _ _ h
  obtain ⟨t8, -, h⟩ := litCI_bound _ _ _ _ h
  obtain ⟨t9, -, h⟩ := clsOne_bound _ _ _ _ h
  obtain ⟨t10, -, h⟩ := greedy_bound _ _ _ _ h
  obtain ⟨t11, -, h⟩ := litCI_bound _ _ _ _ h
  obtain ⟨t12, -, h⟩ := greedy_bound _ _ _ _ h
  obtain ⟨t13, -, h⟩ := clsOne_bound _ _ _ _ h
  simp only [Option.some.injEq] at h
  intro hu
  rw [hu] at h
  have hd := congrArg String.data h
  simp at hd

/-- `blockEntry` when no title-link URL is located: the sentinel url is
computed and the block contributes nothing. -/
theorem blockEntry_of_none {b : List Char} (h : matchUrl b = none) :
    blockEntry b = none := by
  unfold blockEntry
  rw [h]
  rfl

/-- `blockEntry` when the located href is literally the sentinel text: the
push guard fails and the block contributes nothing. -/
theorem blockEntry_of_sentinel {b : List Char}
    (h : matchUrl b = some "No URL found") : blockEntry b = none := by
  unfold blockEntry
  rw [h]
  rfl

/-- `blockEntry` when a non-sentinel URL is located: an entry is pushed,
its summary the stripped paragraph or the placeholder. -/
theorem blockEntry_of_url {b : List Char} {u : String}
    (h : matchUrl b = some u) (hs : u ≠ "No URL found") :
    blockEntry b
      = some { url := u, summary :=
          match matchSummary b with
          | some smm => (String.mk (stripTags smm)).trim
          | none => "No summary found" } := by
  unfold blockEntry
  rw [h]
  show (if u = "No URL found" then none else _ : Option SearchResult) = _
  rw [if_neg hs]

/-- C7 (amended): every emitted entry has a non-empty url different from
the placeholder string, and a matched result block is omitted iff the url
computed for it is the placeholder — that is, iff no title-link URL is
located within it **or** the located URL is literally the placeholder text
`'No URL found'`.  (The original claim's "missing URL is the only drop
condition" fails: a located href equal to the sentinel is also dropped,
see the counterexample.) -/
theorem claim7_extract_url_invariant (html : String) :
    (∀ r ∈ extractResults html, r.url ≠ "" ∧ r.url ≠ "No URL found") ∧
      ∀ b ∈ execBlocks html.data,
        blockEntry b = none ↔
          (matchUrl b = none ∨ matchUrl b = some "No URL found") := by
  constructor
  · intro r hr
    obtain ⟨b, hb, he⟩ := List.mem_filterMap.mp hr
    cases hm : matchUrl b with
    | none =>
      rw [blockEntry_of_none hm] at he
      exact absurd he (by simp)
    | some u =>
      by_cases hs : u = "No URL found"
      · rw [hs] at hm
        rw [blockEntry_of_sentinel hm] at he
        exact absurd he (by simp)
      · rw [blockEntry_of_url hm hs] at he
        have hru : r.url = u := by
          have := Option.some.inj he
          rw [← this]
        rw [hru]
        exact ⟨matchUrl_ne_empty b u hm, hs⟩
  · intro b _
    cases hm : matchUrl b with
    | none =>
      rw [blockEntry_of_none hm]
      simp
    | some u =>
      by_cases hs : u = "No URL found"
      · rw [hs] at hm
        rw [blockEntry_of_sentinel hm]
        simp [hs]
      · rw [blockEntry_of_url hm hs]
        simp [hs]

def c7CexHtml : String :=
  "<article class=\"result\"><a href=\"No URL found\" class=\"url_header\"></article>"

def c7CexBlock : List Char :=
  "<a href=\"No URL found\" class=\"url_header\">".data

/-- Counterexample to C7 as stated: in this document the single matched
result block contains a locatable title-link URL (the href is literally
the text `No URL found`), yet the block is omitted from the output — so a
missing URL is not the only drop condition. -/
theorem claim7_counterexample :
    c7CexBlock ∈ execBlocks c7CexHtml.data ∧
      matchUrl c7CexBlock = some "No URL found" ∧
      blockEntry c7CexBlock = none ∧
      extractResults c7CexHtml = [] := by
  refine ⟨?_, ?_, ?_, ?_⟩ <;> decide

def c7WitHtml : String :=
  "<article class=\"result\"><a href=\"http://x\" class=\"url_header\"></article>"

/-- Witness for C7 (amended) at a concrete input. -/
theorem claim7_extract_url_invariant_witness :
    ({ url := "http://x", summary := "No summary found" } : SearchResult).url ≠ ""
      ∧ ({ url := "http://x", summary := "No summary found" } :
          SearchResult).url ≠ "No URL found" :=
  (claim7_extract_url_invariant c7WitHtml).1
    { url := "http://x", summary := "No summary found" } (by decide)

def c8CexBlock : List Char :=
  "<a href=\"No URL found\" class=\"url_header\">".data

def c8CexHtml : String :=
  "<article class=\"result\"><a href=\"No URL found\" class=\"url_header\"></article>"

/-- Counterexample to C8 as stated: this matched result block contains a
locatable title-link URL (the href is literally the text `No URL found`)
and no matching summary paragraph, yet the extractor omits it instead of
emitting an entry with the placeholder summary — the push guard compares
the extracted url against that very sentinel string. -/
theorem claim8_counterexample :
    matchUrl c8CexBlock = some "No URL found" ∧
      matchSummary c8CexBlock = none ∧
      blockEntry c8CexBlock = none ∧
      c8CexBlock ∈ execBlocks c8CexHtml.data ∧
      extractResults c8CexHtml = [] := by
  refine ⟨?_, ?_, ?_, ?_, ?_⟩ <;> decide

/-- C8 (amended): a result block containing a title-link URL other than
the literal placeholder text `'No URL found'` but no matching summary
paragraph contributes an entry whose summary is the fixed placeholder
text `'No summary found'` — it is not omitted; and via the extraction
loop that entry reaches the output of any document in which the block
matches.  (The original claim, with no restriction on the located URL,
fails when the href is literally the sentinel text: see the
counterexample.) -/
theorem claim8_placeholder_summary (b : List Char) (u : String) (html : String)
    (h1 : matchUrl b = some u) (h2 : u ≠ "No URL found")
    (h3 : matchSummary b = none) :
    blockEntry b = some { url := u, summary := "No summary found" } ∧
      (b ∈ execBlocks html.data →
        { url := u, summary := "No summary found" } ∈ extractResults html) := by
  have hbe : blockEntry b = some { url := u, summary := "No summary found" } := by
    rw [blockEntry_of_url h1 h2, h3]
  exact ⟨hbe, fun hb => List.mem_filterMap.mpr ⟨b, hb, hbe⟩⟩

def c8Block : List Char := "<a href=\"http://y\" class=\"url_header\">".data

def c8Html : String :=
  "<article class=\"result\"><a href=\"http://y\" class=\"url_header\"></article>"

/-- Witness for C8 at a concrete input. -/
theorem claim8_placeholder_summary_witness :
    blockEntry c8Block
        = some { url := "http://y", summary := "No summary found" } ∧
      ({ url := "http://y", summary := "No summary found" } : SearchResult)
        ∈ extractResults c8Html :=
  have h := claim8_placeholder_summary c8Block "http://y" c8Html
    (by decide) (by decide) (by decide)
  ⟨h.1, h.2 (by decide)⟩

def startsWithChars : List Char → List Char → Bool
  | _, [] => true
  | [], _ :: _ => false
  | c :: cs, d :: ds => c == d && startsWithChars cs ds

/-- `String.prototype.includes`, case-sensitive substring test. -/
def containsSub (hay needle : List Char) : Bool :=
  match hay with
  | [] => needle.isEmpty
  | _ :: rest => startsWithChars hay needle || containsSub rest needle

/-- index.ts:276: the anti-bot marker test
`html.includes("body class=\"index_endpoint\"")`. -/
def hasMarker (html : String) : Bool :=
  containsSub html.data "body class=\"index_endpoint\"".data

/-- A `fetch` Response as the classification code observes it: its `ok`
status and its body. -/
structure JsResponse where
  ok : Bool
  body : String
deriving DecidableEq, Repr

/-- The network outcomes of one `fetchResults` invocation: the root
(warm-up) fetch of index.ts:225, the conditional CSS warm-up fetch of
index.ts:247, and the search fetch of index.ts:261; `none` = threw. -/
structure Attempt where
  root : Option JsResponse
  css : Option JsResponse
  search : Option JsResponse

/-- `Response.text()` with its `bodyUsed` flag: reading an
already-consumed body rejects with a `TypeError`. -/
def jsText (r : JsResponse) (used : Bool) : Except Unit (String × Bool) :=
  if used then Except.error () else Except.ok (r.body, true)

/-- The value of the `response` variable after the inner try/catch of
index.ts:223-270, with the `bodyUsed` state of its body. -/
inductive RespState
  | undef
  | got (r : JsResponse) (bodyUsed : Bool)

/-- The inner try of index.ts:223-270: fetch the root page (on throw the
catch leaves `response` undefined and the search fetch is skipped); read
its body with `text()` (index.ts:235, consuming it); the conditional CSS
warm-up fetch has no observable effect (its outcome is discarded, its
failure caught and logged, index.ts:254); then the search fetch replaces
`response` — unless it throws, in which case `response` still holds the
root response whose body is already consumed. -/
def innerTry (a : Attempt) : RespState :=
  match a.root with
  | none => RespState.undef
  | some r0 =>
    match a.search with
    | none => RespState.got r0 true
    | some r1 => RespState.got r1 false

/-- Result of one `fetchResults` body up to the bot-redirect decision. -/
inductive AttemptRes
  | err
  | redirect
  | parsed (rs : List SearchResult)
deriving DecidableEq, Repr

/-- index.ts:271-316 for one attempt: `response === undefined || !response.ok`
throws an HTTP `UserError`; then `response.text()` — which throws (caught by
the outer catch of index.ts:318, hence a `UserError`) if that body was
already consumed by the warm-up read; then the bot-redirect marker test;
otherwise the extraction loop over the search html. -/
def classifyAttempt (a : Attempt) : AttemptRes :=
  match innerTry a with
  | RespState.undef => AttemptRes.err
  | RespState.got r used =>
    if r.ok then
      match jsText r used with
      | Except.error _ => AttemptRes.err
      | Except.ok (html, _) =>
        if hasMarker html then AttemptRes.redirect
        else AttemptRes.parsed (extractResults html)
    else AttemptRes.err

/-- The bot-redirect retry of index.ts:276-284, indexed by the
`doNotRetryAgain` flag: on the first redirect the code sleeps 2000 ms and
recurses once with the flag set; with the flag set a redirect throws
`UserError "Redirected to index page"`.  `atts i` is the network outcome
of the i-th attempt.  Returns (result, number of attempts consulted, the
trace of redirect sleeps in milliseconds). -/
def fetchResultsGo (atts : Nat → Attempt) (i : Nat) :
    Bool → Except Unit (List SearchResult) × Nat × List Nat
  | true =>
    match classifyAttempt (atts i) with
    | AttemptRes.err => (Except.error (), 1, [])
    | AttemptRes.redirect => (Except.error (), 1, [])
    | AttemptRes.parsed rs => (Except.ok rs, 1, [])
  | false =>
    match classifyAttempt (atts i) with
    | AttemptRes.err => (Except.error (), 1, [])
    | AttemptRes.redirect =>
      let next := fetchResultsGo atts (i + 1) true
      (next.1, next.2.1 + 1, 2000 :: next.2.2)
    | AttemptRes.parsed rs => (Except.ok rs, 1, [])
termination_by b => (if b then 0 else 1 : Nat)
decreasing_by decide

/-- One outer `fetchResults` call as its callers see it (flag initially unset). -/
def fetchResultsCall (atts : Nat → Attempt) :
    Except Unit (List SearchResult) × Nat × List Nat :=
  fetchResultsGo atts 0 false

/-- C3: whenever the search request of an attempt fails — it threw (network
error) or its response has a non-2xx status — the attempt classifies as a
propagated error (`TransportError`): never as a parsed result, in
particular never by parsing the already-consumed warm-up root-page body;
consequently a `fetchResults` call whose first attempt fails that way
propagates an error. -/
theorem claim3_transport_error (a : Attempt)
    (h : ∀ r, a.search = some r → r.ok = false) :
    classifyAttempt a = AttemptRes.err ∧
      ∀ atts : Nat → Attempt, atts 0 = a →
        (fetchResultsCall atts).1 = Except.error () := by
  have hc : classifyAttempt a = AttemptRes.err := by
    unfold classifyAttempt innerTry
    cases hr : a.root with
    | none => rfl
    | some r0 =>
      cases hs : a.search with
      | none =>
        show (if r0.ok then
            match jsText r0 true with
            | Except.error _ => AttemptRes.err
            | Except.ok (html, _) =>
              if hasMarker html then AttemptRes.redirect
              else AttemptRes.parsed (extractResults html)
          else AttemptRes.err) = AttemptRes.err
        cases hok : r0.ok with
        | false => rw [if_neg (fun hcon => Bool.noConfusion hcon)]
        | true => rw [if_pos rfl]; rfl
      | some r1 =>
        have hok := h r1 hs
        show (if r1.ok then _ else AttemptRes.err) = AttemptRes.err
        rw [hok, if_neg (fun hcon => Bool.noConfusion hcon)]
  refine ⟨hc, fun atts h0 => ?_⟩
  show (fetchResultsGo atts 0 false).1 = Except.error ()
  rw [fetchResultsGo, h0, hc]

def c3Attempt : Attempt := ⟨some ⟨true, "x"⟩, none, none⟩

/-- Witness for C3 at a concrete input: root fetch succeeded (its body was
consumed by the warm-up read), search fetch threw. -/
theorem claim3_transport_error_witness :
    classifyAttempt c3Attempt = AttemptRes.err :=
  (claim3_transport_error c3Attempt
    (fun r hcon => by simp [c3Attempt] at hcon)).1

/-- C4: when the first attempt's body carries the bot-redirect marker, the
fetch sleeps 2000 ms and retries exactly once — two attempts are
consulted, and attempts beyond the second never influence the call — and
if the retried attempt's body also carries the marker the call surfaces a
hard failure. -/
theorem claim4_bot_redirect_once (atts : Nat → Attempt)
    (h : classifyAttempt (atts 0) = AttemptRes.redirect) :
    (fetchResultsCall atts).2.1 = 2 ∧
      (fetchResultsCall atts).2.2 = [2000] ∧
      (classifyAttempt (atts 1) = AttemptRes.redirect →
        (fetchResultsCall atts).1 = Except.error ()) ∧
      ∀ atts' : Nat → Attempt, atts' 0 = atts 0 → atts' 1 = atts 1 →
        fetchResultsCall atts' = fetchResultsCall atts := by
  have hgo : ∀ f : Nat → Attempt, classifyAttempt (f 0) = AttemptRes.redirect →
      fetchResultsGo f 0 false = ((fetchResultsGo f 1 true).1, 2, [2000]) := by
    intro f hf
    cases hc1 : classifyAttempt (f 1) with
    | err => simp [fetchResultsGo, hf, hc1]
    | redirect => simp [fetchResultsGo, hf, hc1]
    | parsed rs => simp [fetchResultsGo, hf, hc1]
  have hmain := hgo atts h
  refine ⟨?_, ?_, ?_, ?_⟩
  · show (fetchResultsGo atts 0 false).2.1 = 2
    rw [hmain]
  · show (fetchResultsGo atts 0 false).2.2 = [2000]
    rw [hmain]
  · intro h1
    show (fetchResultsGo atts 0 false).1 = Except.error ()
    rw [hmain]
    show (fetchResultsGo atts 1 true).1 = Except.error ()
    rw [fetchResultsGo, h1]
  · intro atts' h0' h1'
    have hmain' := hgo atts' (by rw [h0']; exact h)
    show fetchResultsGo atts' 0 false = fetchResultsGo atts 0 false
    rw [hmain, hmain']
    rw [show fetchResultsGo atts' 1 true = fetchResultsGo atts 1 true from by
      rw [fetchResultsGo, fetchResultsGo, h1']]

def c4Attempts : Nat → Attempt := fun _ =>
  ⟨some ⟨true, "w"⟩, none, some ⟨true, "body class=\"index_endpoint\""⟩⟩

/-- Witness for C4 at a concrete input: every attempt bot-redirects, so the
call consults exactly two attempts, sleeps once for 2000 ms, and fails. -/
theorem claim4_bot_redirect_once_witness :
    (fetchResultsCall c4Attempts).2.1 = 2 ∧
      (fetchResultsCall c4Attempts).1 = Except.error () :=
  have h := claim4_bot_redirect_once c4Attempts (by decide)
  ⟨h.1, h.2.2.1 (by decide)⟩

/-- The `execute` entry of the `search` tool (index.ts:338-384), over
oracles for the entropy source and the two fetch pipelines, counting the
`fetchResults` calls performed.  The configured `baseUrl` list is checked
first: `undefined` or empty throws the configuration `UserError`
(index.ts:340-342) before anything else runs.  Otherwise the configured
urls are shuffled and, depending on `detailed === 'true'`, the
multi-server aggregation (its endpoints indexed by their position in the
shuffled order) or the standard retry pipeline runs; the detailed branch
returns `JSON.stringify(allResults)` (index.ts:372). -/
def executeTool (cfg : Option (List String)) (detailed : Bool)
    (sortO : Nat → Bool) (stdFetch : Nat → String → Option String)
    (detFetch : Nat → Nat → Option (List SearchResult)) :
    Except Unit String × Nat :=
  match cfg with
  | none => (Except.error (), 0)
  | some l =>
    if l.length = 0 then (Except.error (), 0)
    else
      let shuffled := shuffleAndFilterUrls sortO (l.map some)
      if detailed then
        let d := executeDetailed ((List.range shuffled.length).map detFetch)
        (Except.ok (jsonStringify d.1), d.2)
      else
        let r := fetchWithRetry stdFetch shuffled 5
        (match r.1 with
         | some t => Except.ok t
         | none => Except.error (), r.2)

/-- C9: with no endpoint list configured (`undefined`) or an empty one,
the call fails immediately with the configuration error and performs zero
fetch calls — no network request, no retry — whatever the mode and
whatever the oracles would have answered. -/
theorem claim9_empty_config_fails_fast (detailed : Bool) (sortO : Nat → Bool)
    (stdFetch : Nat → String → Option String)
    (detFetch : Nat → Nat → Option (List SearchResult)) :
    executeTool none detailed sortO stdFetch detFetch
        = (Except.error (), 0) ∧
      executeTool (some []) detailed sortO stdFetch detFetch
        = (Except.error (), 0) :=
  ⟨rfl, rfl⟩
